import Mathlib

/-!
Verification of the PRiMe metrics computation and normalization engine.

Shallow embedding of the transform stages found in `src/prime/api/metrics.py`,
`src/prime/main.py`, `src/src/api/vcs.py` and `src/src/api/utils.py`:

* timestamps are modelled at day granularity: a UTC timestamp floored with
  `Timestamp.floor(freq="D")` is a day index `d : Nat`, and `daySec d` is the
  corresponding number of seconds since the epoch (00:00:00 of that day);
* a pandas `DataFrame` is a `List` of rows in frame order;
* the numeric size columns (lines, code, comments, blanks, bytes) form the
  record `SizeRow`;
* missing values (`NaN` produced by `reindex`) are `Option`.
-/

/-- The five numeric size columns shared by the size and productivity tables
(`lines`, `code`, `comments`, `blanks`, `bytes`). -/
structure SizeRow where
  lines : Int
  code : Int
  comments : Int
  blanks : Int
  bytes : Int
deriving DecidableEq, Repr

namespace SizeRow

/-- The all-zero row: what `fillna(0)` puts in place of the `NaN` produced by
`DataFrame.diff()` on the first row. -/
def zero : SizeRow := ⟨0, 0, 0, 0, 0⟩

/-- Columnwise subtraction, as performed by `DataFrame.diff()`. -/
def sub (a b : SizeRow) : SizeRow :=
  ⟨a.lines - b.lines, a.code - b.code, a.comments - b.comments,
   a.blanks - b.blanks, a.bytes - b.bytes⟩

/-- Columnwise addition, as performed by `DataFrameGroupBy.sum()`. -/
def add (a b : SizeRow) : SizeRow :=
  ⟨a.lines + b.lines, a.code + b.code, a.comments + b.comments,
   a.blanks + b.blanks, a.bytes + b.bytes⟩

end SizeRow

/-- Sum of a list of size rows, the groupwise `sum()` of pandas. -/
def sumRows (l : List SizeRow) : SizeRow := l.foldl SizeRow.add SizeRow.zero

/-! ## Productivity Calculator, per commit

`ProjectProductivityPerCommit.compute` (src/prime/api/metrics.py, lines
199-204): `self.input_data.diff().fillna(0)` — columnwise first difference of
the per-commit size table, with the first row (whose diff is `NaN`) replaced
by zero. -/

/-- Tail of the diff: each row minus the previous one, `prev` being the row
just before the head of the remaining list. -/
def diffTail (prev : SizeRow) : List SizeRow → List SizeRow
  | [] => []
  | y :: ys => (y.sub prev) :: diffTail y ys

/-- `DataFrame.diff().fillna(0)` on the per-commit size table: first delta is
zero, every later delta is the row minus its predecessor. -/
def projectProductivityPerCommit : List SizeRow → List SizeRow
  | [] => []
  | x :: xs => SizeRow.zero :: diffTail x xs

/-! ## Productivity Calculator, per day

`ProjectProductivityPerDay.compute` (src/prime/api/metrics.py, lines 240-253):
groups the per-commit productivity rows by committed day with
`Grouper(key="committed_datetime", freq="D")` and sums each group.  A pandas
daily `Grouper` produces one group per calendar day between the smallest and
the largest day present, with empty groups summing to zero. -/

/-- Smallest day among `r :: rest` (the left edge of the pandas daily grouper
grid). -/
def loDay (r : Nat × SizeRow) (rest : List (Nat × SizeRow)) : Nat :=
  rest.foldl (fun a x => min a x.1) r.1

/-- Largest day among `r :: rest` (the right edge of the pandas daily grouper
grid). -/
def hiDay (r : Nat × SizeRow) (rest : List (Nat × SizeRow)) : Nat :=
  rest.foldl (fun a x => max a x.1) r.1

/-- `ProjectProductivityPerDay.compute`: one output row per calendar day from
the smallest to the largest committed day, holding the sum of the per-commit
delta rows that fall on that day (zero on days with no commits). -/
def projectProductivityPerDay (rows : List (Nat × SizeRow)) : List (Nat × SizeRow) :=
  match rows with
  | [] => []
  | r :: rest =>
    (List.range' (loDay r rest) (hiDay r rest + 1 - loDay r rest)).map (fun d =>
      (d, sumRows ((rows.filter (fun x => x.1 = d)).map Prod.snd)))

/-- The per-commit-to-per-day pipeline of `handle_project_productivity`
(src/prime/main.py): compute per-commit deltas from the size series, join each
delta row with its commit day, then group by day and sum. -/
def perDayDeltasPipeline (rows : List (Nat × SizeRow)) : List (Nat × SizeRow) :=
  projectProductivityPerDay
    ((rows.map Prod.fst).zip (projectProductivityPerCommit (rows.map Prod.snd)))

/-! ## Size Aggregator, per day

`ProjectSizePerDay.preprocess` (src/prime/api/metrics.py, lines 133-157):
joins per-commit sizes with committed days and keeps, per day, the last row
(`drop_duplicates(subset="committed_datetime", keep="last")`).
`ProjectSizePerDay.compute` (lines 159-179): reindexes onto the daily range
from the first row's day to "today" and forward-fills. -/

/-- `drop_duplicates(keep="last")` on the day column: a row survives exactly
when no later row has the same day, and surviving rows keep their order. -/
def dedupKeepLastByDay : List (Nat × SizeRow) → List (Nat × SizeRow)
  | [] => []
  | r :: rest =>
    if rest.any (fun y => y.1 = r.1) then dedupKeepLastByDay rest
    else r :: dedupKeepLastByDay rest

/-- The last row of a given day in frame order, if any (used to state what
`keep="last"` retains). -/
def lastOfDay : List (Nat × SizeRow) → Nat → Option (Nat × SizeRow)
  | [], _ => none
  | r :: rest, d =>
    match lastOfDay rest d with
    | some x => some x
    | none => if r.1 = d then some r else none

/-- `DataFrame.ffill()` down a column of optional values, carrying `acc`, the
last value seen so far, into `NaN` (= `none`) cells. -/
def ffillAux (acc : Option SizeRow) : List (Nat × Option SizeRow) → List (Nat × Option SizeRow)
  | [] => []
  | (d, v) :: rest =>
    match v with
    | some x => (d, some x) :: ffillAux (some x) rest
    | none => (d, acc) :: ffillAux acc rest

/-- `ProjectSizePerDay`: reindex the day-deduplicated size table onto the
daily calendar and forward-fill.  The range start is
`input_data["committed_datetime"][0]` read AFTER
`drop_duplicates(keep="last", ignore_index=True)`, so it is the day of the
first row of the deduplicated table, which for non-chronological input need
not be the smallest day.  A day absent from the table reindexes to `none`
before the fill. -/
def projectSizePerDay (today : Nat) (rows : List (Nat × SizeRow)) :
    List (Nat × Option SizeRow) :=
  match dedupKeepLastByDay rows with
  | [] => []
  | r0 :: dd_rest =>
    ffillAux none
      ((List.range' r0.1 (today + 1 - r0.1)).map (fun d =>
        (d, ((r0 :: dd_rest).find? (fun x => x.1 = d)).map Prod.snd)))

/-! ## Issue Spoilage Engine

`IssueSpoilagePerDay.preprocess` (src/prime/api/metrics.py, lines 344-384)
and `handle_issue_spoilage` (src/prime/main.py, lines 431-478) build the
same structures: a grid of closed daily intervals
`[day 00:00:00, day 23:59:59]` over `date_range(start, today)` with the final
interval dropped (`IntervalIndex.from_arrays(...)[0:-1]`), and, per issue, a
closed interval from the day-floored `created_at` to the day-floored
`closed_at` (or to "today" for a still-open issue).
`IssueSpoilagePerDay.compute` (lines 386-407) counts, for each daily
interval, the issue intervals that fully cover it. -/

/-- Seconds since the epoch of 00:00:00 UTC of day `d` — the value of a
`Timestamp` floored with `freq="D"`. -/
def daySec (d : Nat) : Nat := d * 86400

/-- An issue row after `preprocess`: `created` is the day-floored
`created_at`; `closed` is the day-floored `closed_at`, `none` when the issue
is still open (`closed_at` null before the `fillna`). -/
structure Issue where
  created : Nat
  closed : Option Nat
deriving DecidableEq, Repr

/-- The closed interval `[created_at, closed_at]` attached to an issue, with
`closed_at` defaulting to "today" (`fillna(value=current_date)`), both bounds
in seconds. -/
def issueInterval (today : Nat) (iss : Issue) : Nat × Nat :=
  (daySec iss.created, daySec (iss.closed.getD today))

/-- The daily interval grid: `[daySec d, daySec d + 86399]` for each day of
`date_range(start, today)`, with the last interval removed by the `[0:-1]`
slice. -/
def dailyIntervals (start today : Nat) : List (Nat × Nat) :=
  ((List.range' start (today + 1 - start)).map
    (fun d => (daySec d, daySec d + 86399))).dropLast

/-- `covers issue daily`: the issue interval fully covers the daily interval,
`input_left <= daily_left && input_right >= daily_right`. -/
def covers (issue daily : Nat × Nat) : Bool :=
  decide (issue.1 ≤ daily.1) && decide (daily.2 ≤ issue.2)

/-- `IssueSpoilagePerDay.compute`: one output row `(start, end, open_issues)`
per daily interval, counting the issues whose interval covers it. -/
def issueSpoilagePerDay (start today : Nat) (issues : List Issue) :
    List (Nat × Nat × Nat) :=
  (dailyIntervals start today).map (fun D =>
    (D.1, D.2, issues.countP (fun iss => covers (issueInterval today iss) D)))

/-! ## Bus-Factor Aggregator

`BusFactorPerDay.compute` (src/prime/api/metrics.py, lines 291-325): the
input rows (per-commit productivity deltas joined with committed day and
committer reference) are grouped by day with a daily `Grouper` (one group per
calendar day between the smallest and largest day, empty groups included);
inside each day every column is passed through `abs()` and the rows are
grouped by committer and summed (pandas sorts the group keys in ascending
order); an empty day group yields the sentinel row
`committer_contributions.loc[0] = [-1, -1, -1, -1, -1, -1]`. -/

/-- An input row of the Bus-Factor Aggregator: committed day, committer
reference and the five per-commit delta metrics. -/
structure BFRow where
  day : Nat
  committer_id : Int
  delta_lines : Int
  delta_code : Int
  delta_comments : Int
  delta_blanks : Int
  delta_bytes : Int
deriving DecidableEq, Repr

/-- An output row of the Bus-Factor Aggregator. -/
structure BFOut where
  date : Nat
  committer_id : Int
  delta_lines : Int
  delta_code : Int
  delta_comments : Int
  delta_blanks : Int
  delta_bytes : Int
deriving DecidableEq, Repr

/-- `date_group.abs()`: absolute value of every numeric column, the committer
reference included. -/
def absRow (r : BFRow) : BFRow :=
  ⟨r.day, |r.committer_id|, |r.delta_lines|, |r.delta_code|, |r.delta_comments|,
   |r.delta_blanks|, |r.delta_bytes|⟩

/-- Keep-first deduplication keyed by `key`, walking the rows once with the
set of keys already seen: the retention rule of
`drop_duplicates(keep="first")` and of a dict of first occurrences. -/
def dedupKeepFirstByAux {α β : Type} [DecidableEq β] (key : α → β) (seen : List β) :
    List α → List α
  | [] => []
  | x :: xs =>
    if key x ∈ seen then dedupKeepFirstByAux key seen xs
    else x :: dedupKeepFirstByAux key (key x :: seen) xs

/-- Keep-first deduplication keyed by `key` (no key seen yet). -/
def dedupKeepFirstBy {α β : Type} [DecidableEq β] (key : α → β) (l : List α) : List α :=
  dedupKeepFirstByAux key [] l

/-- Insert into an ascending list, keeping it ascending. -/
def insertAsc (a : Int) : List Int → List Int
  | [] => [a]
  | b :: l => if a ≤ b then a :: b :: l else b :: insertAsc a l

/-- Ascending sort of the distinct committer keys: pandas `groupby` sorts its
group keys in ascending order. -/
def sortAsc (l : List Int) : List Int := l.foldr insertAsc []

/-- Sum of one projected column over a group of rows. -/
def sumCol (g : List BFRow) (f : BFRow → Int) : Int := (g.map f).sum

/-- The `date_group` of one day after `abs()`: the day's rows with every
column passed through absolute value. -/
def bfGrp (rows : List BFRow) (d : Nat) : List BFRow :=
  (rows.filter (fun r => r.day = d)).map absRow

/-- The committer group keys of one day group, in the ascending order pandas
`groupby` uses. -/
def bfComms (rows : List BFRow) (d : Nat) : List Int :=
  sortAsc (dedupKeepFirstBy (fun c => c) ((bfGrp rows d).map (fun r => r.committer_id)))

/-- The `committer_contributions` row of one committer on one day: each delta
column summed over the committer's rows of the day group. -/
def bfRowFor (rows : List BFRow) (d : Nat) (c : Int) : BFOut :=
  let g := (bfGrp rows d).filter (fun r => r.committer_id = c)
  ⟨d, c, sumCol g (fun r => r.delta_lines), sumCol g (fun r => r.delta_code),
   sumCol g (fun r => r.delta_comments), sumCol g (fun r => r.delta_blanks),
   sumCol g (fun r => r.delta_bytes)⟩

/-- One day group of `BusFactorPerDay.compute`: take the day's rows, apply
`abs()` to every column, group by committer and sum each delta column; when
the day group is empty emit the sentinel row with committer and all metrics
set to `-1`. -/
def busFactorDayGroup (rows : List BFRow) (d : Nat) : List BFOut :=
  if (bfComms rows d).isEmpty then
    [⟨d, -1, -1, -1, -1, -1, -1⟩]
  else
    (bfComms rows d).map (bfRowFor rows d)

/-- Smallest day of a bus-factor input batch `r :: rest`. -/
def bfLo (r : BFRow) (rest : List BFRow) : Nat :=
  rest.foldl (fun a x => min a x.day) r.day

/-- Largest day of a bus-factor input batch `r :: rest`. -/
def bfHi (r : BFRow) (rest : List BFRow) : Nat :=
  rest.foldl (fun a x => max a x.day) r.day

/-- `BusFactorPerDay.compute`: concatenation of the day groups over the daily
grouper grid, smallest to largest day. -/
def busFactorPerDay (rows : List BFRow) : List BFOut :=
  match rows with
  | [] => []
  | r :: rest =>
    (List.range' (bfLo r rest) (bfHi r rest + 1 - bfLo r rest)).flatMap
      (busFactorDayGroup rows)

/-! ## Size Aggregator, per-file per-commit loop

`FileSizePerCommit.compute` (src/prime/api/metrics.py, lines 58-82 and
src/src/api/metrics.py, lines 41-65): for each commit hash in order the VCS
collaborator checks out that revision and the line counter runs against the
working tree; only after the loop completes does
`checkout_most_recent_revision()` run.  There is no `try/finally`, so an
exception raised by the line counter propagates with the working tree left at
the revision that was just checked out.  The embedding tracks the VCS state
(the revision currently checked out) and the exit path. -/

/-- The per-commit loop: check out each commit in turn (the checkout updates
the VCS state) and run the line counter, whose success on a given revision is
`sccOk`.  Returns `Except.error s` when the counter fails with the tree at
revision `s`, otherwise `Except.ok s` with `s` the last revision checked out
(`cur` for an empty commit list). -/
def fileSizeLoop (sccOk : String → Bool) : List String → String → Except String String
  | [], cur => .ok cur
  | c :: rest, _ => if sccOk c then fileSizeLoop sccOk rest c else .error c

/-- The VCS state when control leaves `FileSizePerCommit.compute`: on the
normal path the loop is followed by `checkout_most_recent_revision()` (state
`head`); on the exception path the error propagates and the state stays at
the revision under measurement. -/
def fileSizeFinalVcsState (head : String) (sccOk : String → Bool)
    (commits : List String) (cur : String) : String :=
  match fileSizeLoop sccOk commits cur with
  | .ok _ => head
  | .error s => s

/-! ## Revision Normalizer

`parse_vcs` (src/src/api/vcs.py, lines 331-454) together with the helpers of
src/src/api/utils.py.  Only the prefix of `parse_vcs` up to line 380
executes: the calls that build the authors and committers tables (lines
381-390) pass the keyword names `columns=` and `checkColumn=` to
`copy_dataframe_cols_and_remove_duplicate_rows_by_col`, whose parameters are
declared `(df, keep_columns, unique_column)` (src/src/api/utils.py, lines
59-63), so every run raises `TypeError` there and nothing after line 380 is
ever reached.  The embedding therefore splits in two: `parse_vcs` models what
is computed before the raise (the incremental filter and the commit-hash
column), and the `labeled`/`rewrite` definitions below model the reference
rewriting of lines 402-434 as written — dead code, analysed for the claims
that talk about it. -/

/-- A raw revision as produced by `Git.parse_revisions`: hash, author and
committer identities, co-author emails and parent hashes. -/
structure RawRev where
  commit_hash : String
  author : String
  author_email : String
  committer : String
  committer_email : String
  co_author_emails : List String
  parents : List String
deriving DecidableEq, Repr

/-- The incremental filter of `parse_vcs`: drop every revision whose hash is
in the previously ingested set
(`~commit_log_df["commit_hash"].isin(previous_revisions["commit_hash"])`).
Pandas boolean filtering keeps the surviving rows' original index labels. -/
def filterPrev (prev : List String) (log : List RawRev) : List RawRev :=
  log.filter (fun r => !(prev.contains r.commit_hash))

/-- The revision batch a run works on: the full parsed log on a first run
(`previous_revisions = None`), the filtered log on an incremental run. -/
def parseLog (prev : Option (List String)) (log0 : List RawRev) : List RawRev :=
  match prev with
  | some p => filterPrev p log0
  | none => log0

/-- The part of the `parse_vcs` result that is computed before the
`TypeError` at the authors construction: the commit-hash column of the
filtered log (vcs.py, lines 363-380; no deduplication).  The authors,
committers, commit-log and release tables are never produced. -/
structure ParsedVcs where
  commit_hashes : List String
deriving DecidableEq, Repr

/-- `parse_vcs`, up to the point where it raises: parse and filter the
revisions, then extract the commit-hash column.  `prev = none` models
`previous_revisions = None` (first run). -/
def parse_vcs (prev : Option (List String)) (log0 : List RawRev) : ParsedVcs :=
  { commit_hashes := (parseLog prev log0).map (fun r => r.commit_hash) }

/-- The parameter names declared by
`copy_dataframe_cols_and_remove_duplicate_rows_by_col`
(src/src/api/utils.py, lines 59-63). -/
def copyDedupDeclaredParams : List String := ["df", "keep_columns", "unique_column"]

/-- The keyword names `parse_vcs` passes to that function when building the
authors and committers tables (src/src/api/vcs.py, lines 381-390). -/
def parseVcsDedupCallKeywords : List String := ["df", "columns", "checkColumn"]

/-- Python keyword-call resolution: the call binds only if every keyword
passed names a declared parameter; an unexpected keyword raises
`TypeError`. -/
def kwargsResolve (declared provided : List String) : Bool :=
  provided.all (fun k => declared.contains k)

/-- The filtered revision batch with the pandas index labels its rows keep:
each surviving revision paired with its position in the unfiltered parsed
log (boolean filtering preserves labels; a first run keeps 0, 1, 2, ...). -/
def labeledLog (prev : Option (List String)) (log0 : List RawRev) :
    List (Nat × RawRev) :=
  match prev with
  | some p => log0.enum.filter (fun e => !(p.contains e.2.commit_hash))
  | none => log0.enum

/-- The `commit_hashes` key column as the rewriting code sees it: each hash
paired with its preserved index label. -/
def labeledHashes (prev : Option (List String)) (log0 : List RawRev) :
    List (Nat × String) :=
  (labeledLog prev log0).map (fun e => (e.1, e.2.commit_hash))

/-- The `value_to_index` dict of
`replace_dataframe_value_column_with_index_reference{_list}`:
`df_2.reset_index().set_index(col)["index"].to_dict()` maps a key to the
PRESERVED index label of its row (the last one on duplicates), `none` when
the key is absent. -/
def valueToIndexLabeled {β : Type} [DecidableEq β] : List (Nat × β) → β → Option Nat
  | [], _ => none
  | e :: ks, b =>
    match valueToIndexLabeled ks b with
    | some j => some j
    | none => if e.2 = b then some e.1 else none

/-- `replace_dataframe_value_column_with_index_reference_list`
(src/src/api/utils.py, lines 117-162) applied to one cell: map every value of
the list through the label dict (`none` when absent), then normalize an
empty result to the one-element list holding a null reference. -/
def replaceListLabeled {β : Type} [DecidableEq β] (keys : List (Nat × β))
    (vals : List β) : List (Option Nat) :=
  let l := vals.map (fun v => valueToIndexLabeled keys v)
  if l.isEmpty then [none] else l

/-- The parent-hash rewriting of vcs.py, lines 429-434, as written
(unreachable at run time — every `parse_vcs` call raises at line 381): each
parent hash of a commit-log row is looked up in the label dict built from
the current batch's commit-hash column. -/
def rewriteParents (p : List String) (log0 : List RawRev) (r : RawRev) :
    List (Option Nat) :=
  replaceListLabeled (labeledHashes (some p) log0) r.parents

/-! ## Statement-side definitions

Functions used only to state properties (they phrase what the spec claims the
stages produce, independently of how the stages compute it). -/

/-- The sum, over the commits of committer `c` on day `d`, of the absolute
value of one delta column — the contribution magnitude the spec ascribes to a
bus-factor output row. -/
def absSumCol (rows : List BFRow) (d : Nat) (c : Int) (f : BFRow → Int) : Int :=
  ((rows.filter (fun r => r.day = d ∧ r.committer_id = c)).map (fun r => |f r|)).sum

/-- The per-day delta sum of the spec side of C1: the sum of the per-commit
delta rows whose commit falls on day `d`, the deltas being paired with their
source rows positionally. -/
def dayDeltaSum (rows : List (Nat × SizeRow)) (d : Nat) : SizeRow :=
  sumRows
    (((rows.zip (projectProductivityPerCommit (rows.map Prod.snd))).filter
        (fun x => x.1.1 = d)).map Prod.snd)

/-! ## Helper lemmas -/

theorem fileSizeLoop_error {sccOk : String → Bool} :
    ∀ (commits : List String) (cur s : String),
      fileSizeLoop sccOk commits cur = .error s → sccOk s = false ∧ s ∈ commits := by
  intro commits
  induction commits with
  | nil => intro cur s h; simp [fileSizeLoop] at h
  | cons c rest ih =>
    intro cur s h
    by_cases hc : sccOk c
    · rw [fileSizeLoop, if_pos hc] at h
      obtain ⟨h1, h2⟩ := ih c s h
      exact ⟨h1, List.mem_cons_of_mem _ h2⟩
    · rw [fileSizeLoop, if_neg hc] at h
      injection h with h'
      subst h'
      exact ⟨eq_false_of_ne_true hc, List.mem_cons_self _ _⟩

theorem diffTail_length (prev : SizeRow) (l : List SizeRow) :
    (diffTail prev l).length = l.length := by
  induction l generalizing prev with
  | nil => rfl
  | cons y ys ih => simp [diffTail, ih]

theorem diffTail_getElem :
    ∀ (xs : List SizeRow) (prev : SizeRow) (i : Nat) (a b : SizeRow),
      xs[i]? = some a → (prev :: xs)[i]? = some b →
      (diffTail prev xs)[i]? = some (a.sub b) := by
  intro xs
  induction xs with
  | nil => intro prev i a b h; simp at h
  | cons y ys ih =>
    intro prev i a b ha hb
    cases i with
    | zero =>
      simp at ha hb
      subst ha; subst hb
      simp [diffTail]
    | succ j =>
      simp only [List.getElem?_cons_succ] at ha hb
      simpa [diffTail] using ih y j a b ha hb

theorem foldl_min_le_init (l : List Nat) (a : Nat) : l.foldl min a ≤ a := by
  induction l generalizing a with
  | nil => simp
  | cons x xs ih => exact le_trans (ih (min a x)) (min_le_left a x)

theorem foldl_min_le_mem (l : List Nat) (a b : Nat) (h : b ∈ l) : l.foldl min a ≤ b := by
  induction l generalizing a with
  | nil => simp at h
  | cons x xs ih =>
    rcases List.mem_cons.mp h with rfl | h'
    · exact le_trans (foldl_min_le_init xs (min a b)) (min_le_right a b)
    · exact ih (min a x) h'

theorem foldl_min_eq_or_mem (l : List Nat) (a : Nat) :
    l.foldl min a = a ∨ l.foldl min a ∈ l := by
  induction l generalizing a with
  | nil => exact Or.inl rfl
  | cons x xs ih =>
    rcases ih (min a x) with h | h
    · rcases min_choice a x with hm | hm
      · exact Or.inl (by rw [List.foldl_cons, h, hm])
      · exact Or.inr (by rw [List.foldl_cons, h, hm]; exact List.mem_cons_self _ _)
    · exact Or.inr (List.mem_cons_of_mem _ h)

theorem le_foldl_max_init (l : List Nat) (a : Nat) : a ≤ l.foldl max a := by
  induction l generalizing a with
  | nil => simp
  | cons x xs ih => exact le_trans (le_max_left a x) (ih (max a x))

theorem le_foldl_max_mem (l : List Nat) (a b : Nat) (h : b ∈ l) : b ≤ l.foldl max a := by
  induction l generalizing a with
  | nil => simp at h
  | cons x xs ih =>
    rcases List.mem_cons.mp h with rfl | h'
    · exact le_trans (le_max_right a b) (le_foldl_max_init xs (max a b))
    · exact ih (max a x) h'

theorem foldl_max_eq_or_mem (l : List Nat) (a : Nat) :
    l.foldl max a = a ∨ l.foldl max a ∈ l := by
  induction l generalizing a with
  | nil => exact Or.inl rfl
  | cons x xs ih =>
    rcases ih (max a x) with h | h
    · rcases max_choice a x with hm | hm
      · exact Or.inl (by rw [List.foldl_cons, h, hm])
      · exact Or.inr (by rw [List.foldl_cons, h, hm]; exact List.mem_cons_self _ _)
    · exact Or.inr (List.mem_cons_of_mem _ h)

theorem map_fst_graph {A B : Type} (l : List A) (f : A → B) :
    (l.map (fun d => (d, f d))).map Prod.fst = l := by
  induction l with
  | nil => rfl
  | cons x xs ih => simp [ih]

theorem loDay_fst (r : Nat × SizeRow) (rest : List (Nat × SizeRow)) :
    loDay r rest = (rest.map Prod.fst).foldl min r.1 := by
  rw [loDay, List.foldl_map]

theorem hiDay_fst (r : Nat × SizeRow) (rest : List (Nat × SizeRow)) :
    hiDay r rest = (rest.map Prod.fst).foldl max r.1 := by
  rw [hiDay, List.foldl_map]

theorem lastOfDay_mem :
    ∀ (l : List (Nat × SizeRow)) (d : Nat) (x : Nat × SizeRow),
      lastOfDay l d = some x → x ∈ l ∧ x.1 = d := by
  intro l
  induction l with
  | nil => intro d x h; simp [lastOfDay] at h
  | cons r rest ih =>
    intro d x h
    rw [lastOfDay] at h
    cases h' : lastOfDay rest d with
    | some y =>
      rw [h'] at h
      injection h with h
      obtain ⟨h1, h2⟩ := ih d y h'
      exact ⟨List.mem_cons_of_mem _ (h ▸ h1), h ▸ h2⟩
    | none =>
      rw [h'] at h
      by_cases hd : r.1 = d
      · rw [if_pos hd] at h
        injection h with h
        subst h
        exact ⟨List.mem_cons_self _ _, hd⟩
      · rw [if_neg hd] at h
        exact absurd h (by simp)

theorem lastOfDay_eq_none_iff (l : List (Nat × SizeRow)) (d : Nat) :
    lastOfDay l d = none ↔ ∀ y ∈ l, y.1 ≠ d := by
  induction l with
  | nil => simp [lastOfDay]
  | cons r rest ih =>
    rw [lastOfDay]
    constructor
    · intro h y hy hyd
      rcases List.mem_cons.mp hy with rfl | hy'
      · cases h' : lastOfDay rest d with
        | some x => rw [h'] at h; exact absurd h (by simp)
        | none => rw [h', if_pos hyd] at h; exact absurd h (by simp)
      · cases h' : lastOfDay rest d with
        | some x => rw [h'] at h; exact absurd h (by simp)
        | none => exact (ih.mp h') y hy' hyd
    · intro hall
      have h' : lastOfDay rest d = none :=
        ih.mpr (fun y hy => hall y (List.mem_cons_of_mem _ hy))
      rw [h', if_neg (hall r (List.mem_cons_self _ _))]

theorem lastOfDay_cons_ne (r : Nat × SizeRow) (rest : List (Nat × SizeRow)) (d : Nat)
    (h : r.1 ≠ d) : lastOfDay (r :: rest) d = lastOfDay rest d := by
  rw [lastOfDay]
  cases lastOfDay rest d with
  | some x => rfl
  | none => rw [if_neg h]

theorem dedup_find_eq_lastOfDay (l : List (Nat × SizeRow)) (d : Nat) :
    (dedupKeepLastByDay l).find? (fun x => x.1 = d) = lastOfDay l d := by
  induction l with
  | nil => rfl
  | cons r rest ih =>
    rw [dedupKeepLastByDay]
    by_cases hany : rest.any (fun y => y.1 = r.1)
    · rw [if_pos hany]
      by_cases hd : r.1 = d
      · subst hd
        simp only [List.any_eq_true, decide_eq_true_eq] at hany
        obtain ⟨y, hy, hy'⟩ := hany
        rw [ih, lastOfDay]
        cases h' : lastOfDay rest r.1 with
        | some x => rfl
        | none => exact absurd hy' ((lastOfDay_eq_none_iff rest r.1).mp h' y hy)
      · rw [ih, lastOfDay_cons_ne r rest d hd]
    · rw [if_neg hany]
      by_cases hd : r.1 = d
      · have hnone : lastOfDay rest d = none := by
          rw [lastOfDay_eq_none_iff]
          intro y hy hyd
          apply hany
          simp only [List.any_eq_true, decide_eq_true_eq]
          exact ⟨y, hy, by rw [hyd, hd]⟩
        rw [List.find?_cons_of_pos _ (by simp [hd]), lastOfDay, hnone, if_pos hd]
      · rw [List.find?_cons_of_neg _ (by simp [hd]), ih, lastOfDay_cons_ne r rest d hd]

theorem ffillAux_map_fst :
    ∀ (l : List (Nat × Option SizeRow)) (acc : Option SizeRow),
      (ffillAux acc l).map Prod.fst = l.map Prod.fst := by
  intro l
  induction l with
  | nil => intro acc; rfl
  | cons p rest ih =>
    intro acc
    obtain ⟨d, v⟩ := p
    cases v with
    | some x => simp [ffillAux, ih]
    | none => simp [ffillAux, ih]

theorem ffillAux_some :
    ∀ (l : List (Nat × Option SizeRow)) (acc : Option SizeRow) (i : Nat) (d : Nat) (x : SizeRow),
      l[i]? = some (d, some x) → (ffillAux acc l)[i]? = some (d, some x) := by
  intro l
  induction l with
  | nil => intro acc i d x h; simp at h
  | cons p rest ih =>
    intro acc i d x h
    obtain ⟨d0, v0⟩ := p
    cases i with
    | zero =>
      rw [List.getElem?_cons_zero] at h
      injection h with h
      injection h with hd hv
      subst hd
      subst hv
      simp [ffillAux]
    | succ j =>
      rw [List.getElem?_cons_succ] at h
      cases v0 with
      | some y => rw [ffillAux, List.getElem?_cons_succ]; exact ih _ j d x h
      | none => rw [ffillAux, List.getElem?_cons_succ]; exact ih _ j d x h

theorem ffillAux_adj :
    ∀ (l : List (Nat × Option SizeRow)) (acc : Option SizeRow) (i : Nat) (d : Nat)
      (p : Nat × Option SizeRow),
      (ffillAux acc l)[i]? = some p → l[i + 1]? = some (d, none) →
      (ffillAux acc l)[i + 1]? = some (d, p.2) := by
  intro l
  induction l with
  | nil => intro acc i d p hp h; simp at h
  | cons q rest ih =>
    intro acc i d p hp h
    obtain ⟨d0, v0⟩ := q
    rw [List.getElem?_cons_succ] at h
    cases i with
    | zero =>
      cases rest with
      | nil => simp at h
      | cons q2 rest2 =>
        obtain ⟨d2, v2⟩ := q2
        rw [List.getElem?_cons_zero] at h
        injection h with h
        injection h with hd hv
        subst hd
        subst hv
        cases v0 with
        | some x =>
          rw [ffillAux] at hp ⊢
          rw [List.getElem?_cons_zero] at hp
          injection hp with hp
          subst hp
          rw [List.getElem?_cons_succ, ffillAux, List.getElem?_cons_zero]
        | none =>
          rw [ffillAux] at hp ⊢
          rw [List.getElem?_cons_zero] at hp
          injection hp with hp
          subst hp
          rw [List.getElem?_cons_succ, ffillAux, List.getElem?_cons_zero]
    | succ j =>
      cases v0 with
      | some x =>
        rw [ffillAux] at hp ⊢
        rw [List.getElem?_cons_succ] at hp ⊢
        exact ih _ j d p hp h
      | none =>
        rw [ffillAux] at hp ⊢
        rw [List.getElem?_cons_succ] at hp ⊢
        exact ih _ j d p hp h

theorem ffillAux_all_some :
    ∀ (l : List (Nat × Option SizeRow)) (a0 : SizeRow) (p : Nat × Option SizeRow),
      p ∈ ffillAux (some a0) l → ∃ w, p.2 = some w := by
  intro l
  induction l with
  | nil => intro a0 p hp; simp [ffillAux] at hp
  | cons q rest ih =>
    intro a0 p hp
    obtain ⟨d0, v0⟩ := q
    cases v0 with
    | some x =>
      rw [ffillAux] at hp
      rcases List.mem_cons.mp hp with rfl | hp'
      · exact ⟨x, rfl⟩
      · exact ih x p hp'
    | none =>
      rw [ffillAux] at hp
      rcases List.mem_cons.mp hp with rfl | hp'
      · exact ⟨a0, rfl⟩
      · exact ih a0 p hp'

theorem mem_insertAsc (a x : Int) (l : List Int) :
    x ∈ insertAsc a l ↔ x = a ∨ x ∈ l := by
  induction l with
  | nil => simp [insertAsc]
  | cons b bs ih =>
    rw [insertAsc]
    by_cases h : a ≤ b
    · simp [if_pos h]
    · rw [if_neg h]
      simp only [List.mem_cons, ih]
      tauto

theorem countP_insertAsc (p : Int → Bool) (a : Int) (l : List Int) :
    (insertAsc a l).countP p = l.countP p + if p a then 1 else 0 := by
  induction l with
  | nil => simp [insertAsc, List.countP_cons]
  | cons b bs ih =>
    rw [insertAsc]
    by_cases h : a ≤ b
    · rw [if_pos h]
      simp only [List.countP_cons]
      try omega
    · rw [if_neg h]
      simp only [List.countP_cons, ih]
      try omega

theorem mem_sortAsc (x : Int) (l : List Int) : x ∈ sortAsc l ↔ x ∈ l := by
  induction l with
  | nil => simp [sortAsc]
  | cons b bs ih =>
    show x ∈ insertAsc b (sortAsc bs) ↔ _
    rw [mem_insertAsc]
    simp [ih]

theorem countP_sortAsc (p : Int → Bool) (l : List Int) :
    (sortAsc l).countP p = l.countP p := by
  induction l with
  | nil => rfl
  | cons b bs ih =>
    show (insertAsc b (sortAsc bs)).countP p = _
    rw [countP_insertAsc, ih, List.countP_cons]

theorem mem_dedupKeepFirstByAux {α β : Type} [DecidableEq β] (key : α → β) :
    ∀ (l : List α) (seen : List β) (x : α),
      x ∈ dedupKeepFirstByAux key seen l → x ∈ l := by
  intro l
  induction l with
  | nil => intro seen x h; simp [dedupKeepFirstByAux] at h
  | cons y ys ih =>
    intro seen x h
    rw [dedupKeepFirstByAux] at h
    by_cases hk : key y ∈ seen
    · rw [if_pos hk] at h
      exact List.mem_cons_of_mem _ (ih _ x h)
    · rw [if_neg hk] at h
      rcases List.mem_cons.mp h with rfl | h'
      · exact List.mem_cons_self _ _
      · exact List.mem_cons_of_mem _ (ih _ x h')

theorem mem_dedupKeepFirstBy {α β : Type} [DecidableEq β] (key : α → β)
    (l : List α) (x : α) (h : x ∈ dedupKeepFirstBy key l) : x ∈ l :=
  mem_dedupKeepFirstByAux key l [] x h

theorem countP_dedupKeepFirstByAux {α β : Type} [DecidableEq β] (key : α → β) :
    ∀ (l : List α) (seen : List β) (e : β),
      (dedupKeepFirstByAux key seen l).countP (fun y => key y = e) =
        if e ∉ seen ∧ e ∈ l.map key then 1 else 0 := by
  intro l
  induction l with
  | nil => intro seen e; simp [dedupKeepFirstByAux]
  | cons y ys ih =>
    intro seen e
    rw [dedupKeepFirstByAux]
    by_cases hk : key y ∈ seen
    · rw [if_pos hk, ih]
      have hiff : (e ∉ seen ∧ e ∈ ys.map key) ↔ (e ∉ seen ∧ e ∈ (y :: ys).map key) := by
        simp only [List.map_cons, List.mem_cons]
        constructor
        · rintro ⟨h1, h2⟩
          exact ⟨h1, Or.inr h2⟩
        · rintro ⟨h1, h2⟩
          refine ⟨h1, ?_⟩
          rcases h2 with h3 | h3
          · exact absurd (h3 ▸ hk) h1
          · exact h3
      by_cases hc : e ∉ seen ∧ e ∈ (y :: ys).map key
      · rw [if_pos (hiff.mpr hc), if_pos hc]
      · rw [if_neg (fun h => hc (hiff.mp h)), if_neg hc]
    · rw [if_neg hk, List.countP_cons, ih]
      by_cases he : key y = e
      · subst he
        rw [if_neg (by simp)]
        have hpos : key y ∉ seen ∧ key y ∈ (y :: ys).map key := ⟨hk, by simp⟩
        rw [if_pos hpos]
        simp [hk]
      · simp only [decide_eq_true_eq, if_neg he, add_zero]
        have hiff : (e ∉ key y :: seen ∧ e ∈ ys.map key) ↔
            (e ∉ seen ∧ e ∈ (y :: ys).map key) := by
          simp only [List.map_cons, List.mem_cons]
          constructor
          · rintro ⟨h1, h2⟩
            exact ⟨fun hs => h1 (Or.inr hs), Or.inr h2⟩
          · rintro ⟨h1, h2⟩
            refine ⟨?_, ?_⟩
            · rintro (h3 | h3)
              · exact he h3.symm
              · exact h1 h3
            · rcases h2 with h3 | h3
              · exact absurd h3.symm he
              · exact h3
        by_cases hc : e ∉ seen ∧ e ∈ (y :: ys).map key
        · rw [if_pos (hiff.mpr hc), if_pos hc]
        · rw [if_neg (fun h => hc (hiff.mp h)), if_neg hc]

theorem countP_dedupKeepFirstBy {α β : Type} [DecidableEq β] (key : α → β)
    (l : List α) (e : β) :
    (dedupKeepFirstBy key l).countP (fun y => key y = e) =
      if e ∈ l.map key then 1 else 0 := by
  rw [dedupKeepFirstBy, countP_dedupKeepFirstByAux]
  by_cases hc : e ∈ l.map key
  · rw [if_pos ⟨by simp, hc⟩, if_pos hc]
  · rw [if_neg (fun h => hc h.2), if_neg hc]

theorem busFactorDayGroup_date (rows : List BFRow) (d : Nat) :
    ∀ o ∈ busFactorDayGroup rows d, o.date = d := by
  intro o ho
  simp only [busFactorDayGroup] at ho
  split at ho
  · rcases List.mem_singleton.mp ho with rfl
    rfl
  · obtain ⟨c, hc, rfl⟩ := List.mem_map.mp ho
    rfl

theorem flatMap_filter_date (rows : List BFRow) (days : List Nat) (d : Nat)
    (hnd : days.Nodup) :
    (days.flatMap (busFactorDayGroup rows)).filter (fun o => o.date = d) =
      if d ∈ days then busFactorDayGroup rows d else [] := by
  induction days with
  | nil => simp
  | cons d0 ds ih =>
    rw [List.flatMap_cons, List.filter_append]
    have hnd0 : d0 ∉ ds := (List.nodup_cons.mp hnd).1
    have hnds : ds.Nodup := (List.nodup_cons.mp hnd).2
    by_cases hd : d = d0
    · subst hd
      have h1 : (busFactorDayGroup rows d).filter (fun o => o.date = d) =
          busFactorDayGroup rows d :=
        List.filter_eq_self.mpr (fun o ho => by
          simp only [decide_eq_true_eq]
          exact busFactorDayGroup_date rows d o ho)
      rw [h1, ih hnds, if_neg hnd0, if_pos (List.mem_cons_self _ _), List.append_nil]
    · have h1 : (busFactorDayGroup rows d0).filter (fun o => o.date = d) = [] := by
        rw [List.filter_eq_nil_iff]
        intro o ho
        simp only [decide_eq_true_eq]
        rw [busFactorDayGroup_date rows d0 o ho]
        exact fun h => hd h.symm
      rw [h1, List.nil_append, ih hnds]
      by_cases hds : d ∈ ds
      · rw [if_pos hds, if_pos (List.mem_cons_of_mem _ hds)]
      · rw [if_neg hds, if_neg (fun hc => by
          rcases List.mem_cons.mp hc with h | h
          · exact hd h
          · exact hds h)]

theorem mem_dedup_id (l : List Int) (e : Int) :
    e ∈ dedupKeepFirstBy (fun c => c) l ↔ e ∈ l := by
  constructor
  · exact mem_dedupKeepFirstBy _ l e
  · intro h
    have hcount := countP_dedupKeepFirstBy (fun c : Int => c) l e
    simp only [List.map_id'] at hcount
    rw [if_pos h] at hcount
    have hpos := Nat.lt_of_lt_of_eq Nat.zero_lt_one hcount.symm
    obtain ⟨a, ha, ha'⟩ := List.countP_pos_iff.mp hpos
    simp only [decide_eq_true_eq] at ha'
    exact ha' ▸ ha

theorem grp_map_committer (rows : List BFRow) (d : Nat)
    (hc : ∀ x ∈ rows, 0 ≤ x.committer_id) :
    ((rows.filter (fun r => r.day = d)).map absRow).map (fun r => r.committer_id) =
      (rows.filter (fun r => r.day = d)).map (fun r => r.committer_id) := by
  rw [List.map_map]
  exact List.map_congr_left
    (fun x hx => abs_of_nonneg (hc x (List.mem_of_mem_filter hx)))

theorem bfLo_le (r : BFRow) (rest : List BFRow) (x : BFRow) (hx : x ∈ r :: rest) :
    bfLo r rest ≤ x.day := by
  rw [bfLo, ← List.foldl_map (fun b : BFRow => b.day) min]
  rcases List.mem_cons.mp hx with rfl | hx'
  · exact foldl_min_le_init _ _
  · exact foldl_min_le_mem _ _ _ (List.mem_map_of_mem _ hx')

theorem le_bfHi (r : BFRow) (rest : List BFRow) (x : BFRow) (hx : x ∈ r :: rest) :
    x.day ≤ bfHi r rest := by
  rw [bfHi, ← List.foldl_map (fun b : BFRow => b.day) max]
  rcases List.mem_cons.mp hx with rfl | hx'
  · exact le_foldl_max_init _ _
  · exact le_foldl_max_mem _ _ _ (List.mem_map_of_mem _ hx')

theorem bfComms_mem (rows : List BFRow) (d : Nat)
    (hc : ∀ x ∈ rows, 0 ≤ x.committer_id) (c : Int) :
    c ∈ bfComms rows d ↔ ∃ x ∈ rows, x.day = d ∧ x.committer_id = c := by
  rw [bfComms, mem_sortAsc, mem_dedup_id, bfGrp, grp_map_committer _ _ hc]
  constructor
  · intro h
    obtain ⟨x, hx, hx'⟩ := List.mem_map.mp h
    obtain ⟨hx1, hx2⟩ := List.mem_filter.mp hx
    exact ⟨x, hx1, by simpa using hx2, hx'⟩
  · intro ⟨x, hx, hx1, hx2⟩
    exact List.mem_map.mpr ⟨x, List.mem_filter.mpr ⟨hx, by simpa using hx1⟩, hx2⟩

theorem bfComms_count (rows : List BFRow) (d : Nat) (c : Int) (h : c ∈ bfComms rows d) :
    (bfComms rows d).countP (fun y => y = c) = 1 := by
  rw [bfComms] at h ⊢
  rw [countP_sortAsc]
  have hcount := countP_dedupKeepFirstBy (fun e : Int => e)
    ((bfGrp rows d).map (fun r => r.committer_id)) c
  simp only [List.map_id'] at hcount
  rw [mem_sortAsc, mem_dedup_id] at h
  rw [hcount, if_pos h]

theorem bfRowFor_eq (rows : List BFRow) (d : Nat) (c : Int)
    (hc : ∀ x ∈ rows, 0 ≤ x.committer_id) :
    bfRowFor rows d c =
      ⟨d, c, absSumCol rows d c (fun x => x.delta_lines),
        absSumCol rows d c (fun x => x.delta_code),
        absSumCol rows d c (fun x => x.delta_comments),
        absSumCol rows d c (fun x => x.delta_blanks),
        absSumCol rows d c (fun x => x.delta_bytes)⟩ := by
  have hfil : (bfGrp rows d).filter (fun r => r.committer_id = c) =
      (rows.filter (fun r => r.day = d ∧ r.committer_id = c)).map absRow := by
    rw [bfGrp, List.filter_map]
    congr 1
    have h1 : (rows.filter (fun r => r.day = d)).filter
        ((fun (r : BFRow) => decide (r.committer_id = c)) ∘ absRow) =
        (rows.filter (fun r => r.day = d)).filter (fun r => r.committer_id = c) := by
      apply List.filter_congr
      intro x hx
      have := abs_of_nonneg (hc x (List.mem_of_mem_filter hx))
      simp only [Function.comp, absRow, this]
    rw [h1, List.filter_filter]
    apply List.filter_congr
    intro x hx
    by_cases h1 : x.day = d <;> by_cases h2 : x.committer_id = c <;> simp [h1, h2]
  rw [bfRowFor]
  simp only [hfil]
  congr 1 <;>
    · rw [sumCol, absSumCol, List.map_map]
      rfl


theorem dedupKeepLastByDay_head_sorted :
    ∀ (rows : List (Nat × SizeRow)) (r0 : Nat × SizeRow),
      rows.head? = some r0 → rows.Pairwise (fun a b => a.1 ≤ b.1) →
      ∃ d0 dtail, dedupKeepLastByDay rows = d0 :: dtail ∧ d0.1 = r0.1 := by
  intro rows
  induction rows with
  | nil => intro r0 h0 _; simp at h0
  | cons r rest ih =>
    intro r0 h0 hsort
    rw [List.head?_cons] at h0
    injection h0 with h0
    subst h0
    obtain ⟨hall, hrest⟩ := List.pairwise_cons.mp hsort
    rw [dedupKeepLastByDay]
    by_cases hany : rest.any (fun y => y.1 = r.1)
    · rw [if_pos hany]
      simp only [List.any_eq_true, decide_eq_true_eq] at hany
      obtain ⟨y, hy, hyd⟩ := hany
      cases rest with
      | nil => simp at hy
      | cons rh rt =>
        have hhd : rh.1 = r.1 := by
          rcases List.mem_cons.mp hy with rfl | hy'
          · exact hyd
          · have h1 : rh.1 ≤ y.1 := (List.pairwise_cons.mp hrest).1 y hy'
            have h2 : r.1 ≤ rh.1 := hall rh (List.mem_cons_self _ _)
            omega
        obtain ⟨d0, dtail, hdd, hd0⟩ := ih rh rfl hrest
        exact ⟨d0, dtail, hdd, by rw [hd0, hhd]⟩
    · rw [if_neg hany]
      exact ⟨r, dedupKeepLastByDay rest, rfl, rfl⟩

theorem valueToIndexLabeled_eq_none_iff {β : Type} [DecidableEq β]
    (keys : List (Nat × β)) (b : β) :
    valueToIndexLabeled keys b = none ↔ ∀ e ∈ keys, e.2 ≠ b := by
  induction keys with
  | nil => simp [valueToIndexLabeled]
  | cons e ks ih =>
    rw [valueToIndexLabeled]
    cases h : valueToIndexLabeled ks b with
    | some j =>
      simp only [reduceCtorEq, false_iff]
      intro hall
      have hn := ih.mpr (fun y hy => hall y (List.mem_cons_of_mem _ hy))
      rw [hn] at h
      exact absurd h (by simp)
    | none =>
      by_cases hk : e.2 = b
      · simp only [if_pos hk, reduceCtorEq, false_iff]
        intro hall
        exact hall e (List.mem_cons_self _ _) hk
      · simp only [if_neg hk, true_iff]
        intro y hy
        rcases List.mem_cons.mp hy with rfl | hy'
        · exact hk
        · exact (ih.mp h) y hy'

/-! ## Claim theorems -/

/-- C5: running the Revision Normalizer a second time on the same raw
revisions, with the previously-ingested commit-hash set equal to the hashes
the first (fresh) run produced, yields an empty CommitHash table. -/
theorem parse_vcs_second_run_no_new_hashes (log : List RawRev) :
    (parse_vcs (some ((parse_vcs none log).commit_hashes)) log).commit_hashes = [] := by
  have h : filterPrev (log.map (fun r => r.commit_hash)) log = [] := by
    rw [filterPrev, List.filter_eq_nil_iff]
    intro r hr
    simp only [Bool.not_eq_true', Bool.not_eq_false]
    simp only [List.contains_iff_exists_mem_beq, List.mem_map]
    exact ⟨r.commit_hash, ⟨r, hr, rfl⟩, by simp⟩
  simp [parse_vcs, parseLog, h]

/-- C7 counterexample: with commits `["a", "b"]`, a line counter that fails
on `"b"` and most-recent revision `"head"`, the Size Aggregator's per-commit
loop exits with the VCS left at `"b"`, not restored to `"head"` — the claimed
restore-on-every-exit-path does not hold. -/
theorem vcs_restore_skipped_on_failure_cex :
    fileSizeFinalVcsState "head" (fun c => c == "a") ["a", "b"] "head" = "b" ∧
      ("b" : String) ≠ "head" := ⟨rfl, by decide⟩

/-- C7 as amended: the VCS is restored to the most-recent revision only on
the normal exit path; when the line counter fails on some commit, control
leaves the stage with the VCS still at the first failing commit's
revision. -/
theorem vcs_restore_by_exit_path (head cur : String) (sccOk : String → Bool)
    (commits : List String) :
    (∀ s, fileSizeLoop sccOk commits cur = .ok s →
       fileSizeFinalVcsState head sccOk commits cur = head) ∧
    (∀ s, fileSizeLoop sccOk commits cur = .error s →
       fileSizeFinalVcsState head sccOk commits cur = s ∧ sccOk s = false ∧
         s ∈ commits) := by
  constructor
  · intro s hs
    simp [fileSizeFinalVcsState, hs]
  · intro s hs
    obtain ⟨h1, h2⟩ := fileSizeLoop_error commits cur s hs
    exact ⟨by simp [fileSizeFinalVcsState, hs], h1, h2⟩

/-- Witness for C7: the failing-path clause evaluated on commits
`["a", "b"]` with the line counter failing on `"b"`. -/
theorem vcs_restore_by_exit_path_witness :
    fileSizeLoop (fun c => c == "a") ["a", "b"] "h" = .error "b" ∧
    (fileSizeFinalVcsState "h" (fun c => c == "a") ["a", "b"] "h" = "b" ∧
      (("b" : String) == "a") = false ∧ "b" ∈ ["a", "b"]) :=
  ⟨rfl, (vcs_restore_by_exit_path "h" "h" (fun c => c == "a") ["a", "b"]).2 "b" rfl⟩

/-- C2 counterexample: one issue created and closed on day 0, project start
day 0, today day 2.  The claim requires the issue to be counted in exactly
one daily open_issues count; the Issue Spoilage Engine counts it in none —
every daily count is 0. -/
theorem sameDay_issue_uncounted_cex :
    ¬ ((issueSpoilagePerDay 0 2 [⟨0, some 0⟩]).countP
        (fun r => r.2.2 ≠ 0) = 1) := by
  decide

/-- C2 as amended: an issue created and closed on the same day covers no
daily interval at all — its interval `[day 00:00, day 00:00]` never reaches
a daily interval's 23:59:59 right endpoint — so removing it leaves every
daily open_issues count unchanged. -/
theorem sameDay_issue_contributes_zero (start today d : Nat) (rest : List Issue) :
    issueSpoilagePerDay start today (⟨d, some d⟩ :: rest) =
      issueSpoilagePerDay start today rest := by
  unfold issueSpoilagePerDay
  rw [List.map_eq_map_iff]
  intro D hD
  obtain ⟨a, -, rfl⟩ := List.mem_map.mp (List.dropLast_subset _ hD)
  have hcov : covers (issueInterval today ⟨d, some d⟩)
      (daySec a, daySec a + 86399) = false := by
    simp only [covers, issueInterval, daySec, Option.getD_some]
    simp only [Bool.and_eq_false_iff, decide_eq_false_iff_not, not_le]
    omega
  rw [List.countP_cons]
  simp [hcov]

/-- C4 counterexample: project start day 0, today day 2, one issue created
day 0 and still open.  The claim requires one row per day 0, 1, 2 with
the open issue counted on each (`[1, 1, 1]`); the engine drops today's
interval and outputs `[1, 1]`. -/
theorem spoilage_grid_excludes_today_cex :
    ¬ ((issueSpoilagePerDay 0 2 [⟨0, none⟩]).map (fun r => r.2.2) = [1, 1, 1]) := by
  decide

/-- C4 as amended: the daily grid holds exactly one closed interval
`[00:00:00, 23:59:59]` per day from the first commit's day through the day
BEFORE today (the `[0:-1]` slice drops today's interval), so the output has
one row per such day; an issue still open at today (closed bound filled with
today) is counted on every grid day from its created day onward. -/
theorem spoilage_grid_coverage (start today c : Nat) (h : start ≤ today) :
    dailyIntervals start today =
      (List.range' start (today - start)).map (fun d => (daySec d, daySec d + 86399)) ∧
    ∀ row ∈ issueSpoilagePerDay start today [⟨c, none⟩],
      row.2.2 = if daySec c ≤ row.1 then 1 else 0 := by
  have hn : today + 1 - start = (today - start) + 1 := by omega
  have hgrid : dailyIntervals start today =
      (List.range' start (today - start)).map (fun d => (daySec d, daySec d + 86399)) := by
    unfold dailyIntervals
    rw [hn, List.range'_concat, List.map_append]
    simp [List.dropLast_concat]
  refine ⟨hgrid, ?_⟩
  intro row hrow
  unfold issueSpoilagePerDay at hrow
  rw [hgrid] at hrow
  rw [List.map_map] at hrow
  obtain ⟨a, ha, rfl⟩ := List.mem_map.mp hrow
  have halt : a < today := by
    have := List.mem_range'_1.mp ha
    omega
  have hcov : covers (issueInterval today ⟨c, none⟩) (daySec a, daySec a + 86399) =
      decide (daySec c ≤ daySec a) := by
    simp only [covers, issueInterval, daySec, Option.getD_none]
    have h2 : a * 86400 + 86399 ≤ today * 86400 := by omega
    simp [h2]
  simp only [Function.comp, List.countP, List.countP.go, hcov]
  by_cases hc : daySec c ≤ daySec a
  · simp [hc]
  · simp [hc]

/-- Witness for C4: the amended grid and counting property evaluated at
start day 0, today day 2, one issue created day 1 and still open. -/
theorem spoilage_grid_coverage_witness :
    (0 : Nat) ≤ 2 ∧
    (dailyIntervals 0 2 =
      (List.range' 0 2).map (fun d => (daySec d, daySec d + 86399)) ∧
    ∀ row ∈ issueSpoilagePerDay 0 2 [⟨1, none⟩],
      row.2.2 = if daySec 1 ≤ row.1 then 1 else 0) :=
  ⟨by decide, spoilage_grid_coverage 0 2 1 (by decide)⟩

/-- C1 counterexample: two commits on day 0 with code sizes 10 then 20,
today day 0.  The flood-filled daily size series is `[20]`, whose first
delta the claim fixes at 0; the per-day productivity output is `[10]` (the
sum of the day's per-commit deltas), so the per-day deltas are not the
first differences of the daily size series. -/
theorem perDay_delta_firstDay_cex :
    (projectSizePerDay 0 [(0, ⟨10, 10, 10, 10, 10⟩), (0, ⟨20, 20, 20, 20, 20⟩)]).map
        (fun r => r.2.map (fun s => s.code)) = [some 20] ∧
    (perDayDeltasPipeline [(0, ⟨10, 10, 10, 10, 10⟩), (0, ⟨20, 20, 20, 20, 20⟩)]).map
        (fun r => r.2.code) = [10] ∧ ((10 : Int) ≠ 0) :=
  ⟨by decide, by decide, by decide⟩

/-- C1 as amended: the per-commit deltas are first differences with the
first delta zero; the per-day deltas are, for each calendar day from the
smallest to the largest commit day, the SUM of the per-commit deltas of
that day's commits — not the day-over-day difference of the flood-filled
daily size series. -/
theorem perCommit_perDay_delta_characterization (rows : List (Nat × SizeRow))
    (r : Nat × SizeRow) (rest : List (Nat × SizeRow)) (h : rows = r :: rest) :
    (projectProductivityPerCommit (rows.map Prod.snd))[0]? = some SizeRow.zero ∧
    (∀ i a b, (rows.map Prod.snd)[i + 1]? = some a → (rows.map Prod.snd)[i]? = some b →
      (projectProductivityPerCommit (rows.map Prod.snd))[i + 1]? = some (a.sub b)) ∧
    ((∀ x ∈ rows, loDay r rest ≤ x.1 ∧ x.1 ≤ hiDay r rest) ∧
      (∃ x ∈ rows, x.1 = loDay r rest) ∧ (∃ x ∈ rows, x.1 = hiDay r rest) ∧
      (perDayDeltasPipeline rows).map Prod.fst =
        List.range' (loDay r rest) (hiDay r rest + 1 - loDay r rest)) ∧
    (∀ d v, (d, v) ∈ perDayDeltasPipeline rows → v = dayDeltaSum rows d) := by
  subst h
  have hlen : (diffTail r.2 (rest.map Prod.snd)).length = (rest.map Prod.fst).length := by
    rw [diffTail_length]
    simp
  have hzl : ((r :: rest).map Prod.fst).zip
      (projectProductivityPerCommit ((r :: rest).map Prod.snd)) =
      (r.1, SizeRow.zero) :: ((rest.map Prod.fst).zip (diffTail r.2 (rest.map Prod.snd))) := by
    simp [projectProductivityPerCommit]
  have hfst : ((rest.map Prod.fst).zip (diffTail r.2 (rest.map Prod.snd))).map Prod.fst =
      rest.map Prod.fst := List.map_fst_zip _ _ (le_of_eq hlen.symm)
  have hlo : loDay (r.1, SizeRow.zero)
      ((rest.map Prod.fst).zip (diffTail r.2 (rest.map Prod.snd))) = loDay r rest := by
    rw [loDay_fst, loDay_fst, hfst]
  have hhi : hiDay (r.1, SizeRow.zero)
      ((rest.map Prod.fst).zip (diffTail r.2 (rest.map Prod.snd))) = hiDay r rest := by
    rw [hiDay_fst, hiDay_fst, hfst]
  have hpipe : perDayDeltasPipeline (r :: rest) =
      (List.range' (loDay r rest) (hiDay r rest + 1 - loDay r rest)).map (fun d =>
        (d, sumRows (((((r :: rest).map Prod.fst).zip
          (projectProductivityPerCommit ((r :: rest).map Prod.snd))).filter
            (fun x => x.1 = d)).map Prod.snd))) := by
    rw [perDayDeltasPipeline, hzl, projectProductivityPerDay, hlo, hhi, ← hzl]
  refine ⟨by simp [projectProductivityPerCommit], ?_, ⟨?_, ?_, ?_, ?_⟩, ?_⟩
  · intro i a b ha hb
    simp only [List.map_cons] at ha hb ⊢
    rw [List.getElem?_cons_succ] at ha
    rw [projectProductivityPerCommit, List.getElem?_cons_succ]
    exact diffTail_getElem _ _ _ _ _ ha hb
  · intro x hx
    rcases List.mem_cons.mp hx with rfl | hx'
    · exact ⟨by rw [loDay_fst]; exact foldl_min_le_init _ _,
        by rw [hiDay_fst]; exact le_foldl_max_init _ _⟩
    · exact ⟨by rw [loDay_fst]; exact foldl_min_le_mem _ _ _ (List.mem_map_of_mem _ hx'),
        by rw [hiDay_fst]; exact le_foldl_max_mem _ _ _ (List.mem_map_of_mem _ hx')⟩
  · rw [loDay_fst]
    rcases foldl_min_eq_or_mem (rest.map Prod.fst) r.1 with h | h
    · exact ⟨r, List.mem_cons_self _ _, h.symm⟩
    · obtain ⟨x, hx, hx'⟩ := List.mem_map.mp h
      exact ⟨x, List.mem_cons_of_mem _ hx, hx'⟩
  · rw [hiDay_fst]
    rcases foldl_max_eq_or_mem (rest.map Prod.fst) r.1 with h | h
    · exact ⟨r, List.mem_cons_self _ _, h.symm⟩
    · obtain ⟨x, hx, hx'⟩ := List.mem_map.mp h
      exact ⟨x, List.mem_cons_of_mem _ hx, hx'⟩
  · rw [hpipe]
    exact map_fst_graph _ _
  · intro d v hv
    rw [hpipe] at hv
    obtain ⟨d0, hd0, heq⟩ := List.mem_map.mp hv
    injection heq with h1 h2
    subst h1
    subst h2
    rw [dayDeltaSum, List.zip_map_left, List.filter_map, List.map_map]
    rfl

/-- Witness for C1: the per-commit clause evaluated on two day-0 commits
with sizes 10 and 20. -/
theorem perCommit_perDay_delta_characterization_witness :
    ([((0 : Nat), (⟨10, 10, 10, 10, 10⟩ : SizeRow)), (0, ⟨20, 20, 20, 20, 20⟩)] =
      ((0 : Nat), (⟨10, 10, 10, 10, 10⟩ : SizeRow)) ::
        [((0 : Nat), (⟨20, 20, 20, 20, 20⟩ : SizeRow))]) ∧
    (projectProductivityPerCommit
      (([((0 : Nat), (⟨10, 10, 10, 10, 10⟩ : SizeRow)),
        (0, ⟨20, 20, 20, 20, 20⟩)]).map Prod.snd))[0]? = some SizeRow.zero :=
  ⟨rfl, (perCommit_perDay_delta_characterization
    [((0 : Nat), (⟨10, 10, 10, 10, 10⟩ : SizeRow)), (0, ⟨20, 20, 20, 20, 20⟩)]
    ((0 : Nat), (⟨10, 10, 10, 10, 10⟩ : SizeRow))
    [((0 : Nat), (⟨20, 20, 20, 20, 20⟩ : SizeRow))] rfl).1⟩

/-- C6: for nonempty input with nonnegative committer references, the
Bus-Factor Aggregator emits, for each calendar day with commits, exactly one
row per (day, committer) whose metric values are the sums of the absolute
values of that committer's per-commit deltas on that day, and no rows for
committers without commits that day; a day in the grouper range whose group
is empty gets the single sentinel row (committer and all metrics -1) instead
of being omitted. -/
theorem busFactor_rows_per_day_committer (rows : List BFRow) (r : BFRow) (rest : List BFRow)
    (hrows : rows = r :: rest)
    (hc : ∀ x ∈ rows, 0 ≤ x.committer_id) :
    (∀ d, (∃ x ∈ rows, x.day = d) →
      ((∀ c, (∃ x ∈ rows, x.day = d ∧ x.committer_id = c) →
        (((busFactorPerDay rows).filter
            (fun o => o.date = d ∧ o.committer_id = c)).length = 1 ∧
         (⟨d, c, absSumCol rows d c (fun x => x.delta_lines),
            absSumCol rows d c (fun x => x.delta_code),
            absSumCol rows d c (fun x => x.delta_comments),
            absSumCol rows d c (fun x => x.delta_blanks),
            absSumCol rows d c (fun x => x.delta_bytes)⟩ : BFOut) ∈ busFactorPerDay rows)) ∧
       (∀ o ∈ busFactorPerDay rows, o.date = d →
          ∃ x ∈ rows, x.day = d ∧ x.committer_id = o.committer_id))) ∧
    (∀ d, bfLo r rest ≤ d → d ≤ bfHi r rest → (∀ x ∈ rows, x.day ≠ d) →
      (busFactorPerDay rows).filter (fun o => o.date = d) =
        [⟨d, -1, -1, -1, -1, -1, -1⟩]) := by
  subst hrows
  have hout : busFactorPerDay (r :: rest) =
      (List.range' (bfLo r rest) (bfHi r rest + 1 - bfLo r rest)).flatMap
        (busFactorDayGroup (r :: rest)) := rfl
  have hfilter : ∀ d, bfLo r rest ≤ d → d ≤ bfHi r rest →
      (busFactorPerDay (r :: rest)).filter (fun o => o.date = d) =
        busFactorDayGroup (r :: rest) d := by
    intro d h1 h2
    rw [hout, flatMap_filter_date _ _ _ (List.nodup_range' _ _),
      if_pos (List.mem_range'_1.mpr ⟨h1, by omega⟩)]
  refine ⟨?_, ?_⟩
  · intro d hd
    obtain ⟨x0, hx0, hx0d⟩ := hd
    have hdlo : bfLo r rest ≤ d := hx0d ▸ bfLo_le r rest x0 hx0
    have hdhi : d ≤ bfHi r rest := hx0d ▸ le_bfHi r rest x0 hx0
    have hgrp := hfilter d hdlo hdhi
    have hne : (bfComms (r :: rest) d).isEmpty ≠ true := by
      intro hco
      exact List.ne_nil_of_mem
        ((bfComms_mem _ _ hc x0.committer_id).mpr ⟨x0, hx0, hx0d, rfl⟩)
        (List.isEmpty_iff.mp hco)
    have hgd : busFactorDayGroup (r :: rest) d =
        (bfComms (r :: rest) d).map (bfRowFor (r :: rest) d) := by
      rw [busFactorDayGroup, if_neg hne]
    refine ⟨?_, ?_⟩
    · intro c hcc
      have hcmem : c ∈ bfComms (r :: rest) d := (bfComms_mem _ _ hc c).mpr hcc
      constructor
      · have hsplit : (busFactorPerDay (r :: rest)).filter
            (fun o => o.date = d ∧ o.committer_id = c) =
            ((busFactorPerDay (r :: rest)).filter (fun o => o.date = d)).filter
              (fun o => o.committer_id = c) := by
          rw [List.filter_filter]
          apply List.filter_congr
          intro o ho
          by_cases h1 : o.date = d <;> by_cases h2 : o.committer_id = c <;> simp [h1, h2]
        rw [hsplit, hgrp, hgd, List.filter_map]
        have hp : ((fun o : BFOut => decide (o.committer_id = c)) ∘
            bfRowFor (r :: rest) d) = (fun e => decide (e = c)) := rfl
        rw [hp, List.length_map, ← List.countP_eq_length_filter]
        exact bfComms_count _ _ _ hcmem
      · rw [← bfRowFor_eq _ _ _ hc]
        have hmem : bfRowFor (r :: rest) d c ∈ busFactorDayGroup (r :: rest) d := by
          rw [hgd]
          exact List.mem_map_of_mem _ hcmem
        rw [← hgrp] at hmem
        exact List.mem_of_mem_filter hmem
    · intro o ho hod
      have hmem : o ∈ busFactorDayGroup (r :: rest) d := by
        rw [← hgrp]
        exact List.mem_filter.mpr ⟨ho, by simp [hod]⟩
      rw [hgd] at hmem
      obtain ⟨c, hcmem, rfl⟩ := List.mem_map.mp hmem
      obtain ⟨x, hx, hx1, hx2⟩ := (bfComms_mem _ _ hc c).mp hcmem
      exact ⟨x, hx, hx1, by rw [hx2]; rfl⟩
  · intro d h1 h2 hemp
    have hnil : (r :: rest).filter (fun x => x.day = d) = [] := by
      rw [List.filter_eq_nil_iff]
      intro x hx
      simp only [decide_eq_true_eq]
      exact hemp x hx
    rw [hfilter d h1 h2]
    simp [busFactorDayGroup, bfComms, bfGrp, hnil, sortAsc, dedupKeepFirstBy,
      dedupKeepFirstByAux]

/-- Witness for C6: the sentinel clause evaluated on three commits (days 0
and 2, gap at day 1). -/
theorem busFactor_rows_per_day_committer_witness :
    ([(⟨0, 1, 1, -2, 3, -4, 5⟩ : BFRow), ⟨0, 1, -1, 1, -1, 1, -1⟩,
      ⟨2, 0, 1, 1, 1, 1, 1⟩] =
      (⟨0, 1, 1, -2, 3, -4, 5⟩ : BFRow) ::
        [(⟨0, 1, -1, 1, -1, 1, -1⟩ : BFRow), ⟨2, 0, 1, 1, 1, 1, 1⟩]) ∧
    (∀ x ∈ [(⟨0, 1, 1, -2, 3, -4, 5⟩ : BFRow), ⟨0, 1, -1, 1, -1, 1, -1⟩,
      ⟨2, 0, 1, 1, 1, 1, 1⟩], 0 ≤ x.committer_id) ∧
    (busFactorPerDay [(⟨0, 1, 1, -2, 3, -4, 5⟩ : BFRow), ⟨0, 1, -1, 1, -1, 1, -1⟩,
        ⟨2, 0, 1, 1, 1, 1, 1⟩]).filter (fun o => o.date = 1) =
      [⟨1, -1, -1, -1, -1, -1, -1⟩] :=
  ⟨rfl, by decide,
    (busFactor_rows_per_day_committer
      [(⟨0, 1, 1, -2, 3, -4, 5⟩ : BFRow), ⟨0, 1, -1, 1, -1, 1, -1⟩,
        ⟨2, 0, 1, 1, 1, 1, 1⟩]
      (⟨0, 1, 1, -2, 3, -4, 5⟩ : BFRow)
      [(⟨0, 1, -1, 1, -1, 1, -1⟩ : BFRow), ⟨2, 0, 1, 1, 1, 1, 1⟩]
      rfl (by decide)).2 1 (by decide) (by decide) (by decide)⟩

/-- C3 counterexample: commits on days 0, 1, 0 (non-chronological committed
times) with today = 1.  The claim requires one row per calendar day from the
first commit's day (0) through today (1); the code reads the range start
from the first row AFTER `drop_duplicates(keep="last")` — day 1 here — so
the output has a single row for day 1 and no row for day 0. -/
theorem sizePerDay_nonchronological_start_cex :
    (projectSizePerDay 1 [(0, ⟨1, 1, 1, 1, 1⟩), (1, ⟨2, 2, 2, 2, 2⟩),
        (0, ⟨3, 3, 3, 3, 3⟩)]).map Prod.fst = [1] ∧
      ([1] : List Nat) ≠ [0, 1] := by
  exact ⟨by decide, by decide⟩

/-- C3 as amended: the daily calendar starts at the day of the first row of
the day-deduplicated table; when the committed days are non-decreasing (the
chronological case) that day is the first commit's day, and then the output
has exactly one row per calendar day from the first commit's day through
today, every row carries a value, a day with commits carries the values of
the last commit of that day (`lastOfDay`), and a day without commits repeats
the previous row's values (forward fill) and is never the first day. -/
theorem projectSizePerDay_coverage_chronological (today : Nat)
    (rows : List (Nat × SizeRow)) (r0 : Nat × SizeRow)
    (h0 : rows.head? = some r0)
    (hsort : rows.Pairwise (fun a b => a.1 ≤ b.1))
    (hmax : ∀ x ∈ rows, x.1 ≤ today) :
    (projectSizePerDay today rows).map Prod.fst = List.range' r0.1 (today + 1 - r0.1) ∧
    (∀ i d v, (projectSizePerDay today rows)[i]? = some (d, v) →
      ((∃ w, v = some w) ∧
       (∀ x, lastOfDay rows d = some x → v = some x.2) ∧
       (lastOfDay rows d = none → 0 < i ∧
         ∀ p, (projectSizePerDay today rows)[i - 1]? = some p → v = p.2))) := by
  have hr0 : r0 ∈ rows := by
    cases rows with
    | nil => simp at h0
    | cons a rest =>
      rw [List.head?_cons] at h0
      injection h0 with h0
      exact h0 ▸ List.mem_cons_self _ _
  have hdef : projectSizePerDay today rows =
      ffillAux none ((List.range' r0.1 (today + 1 - r0.1)).map
        (fun d => (d, (lastOfDay rows d).map Prod.snd))) := by
    obtain ⟨d0, dtail, hdd, hd0⟩ := dedupKeepLastByDay_head_sorted rows r0 h0 hsort
    unfold projectSizePerDay
    rw [hdd]
    show ffillAux none ((List.range' d0.1 (today + 1 - d0.1)).map
      (fun d => (d, ((d0 :: dtail).find? (fun x => x.1 = d)).map Prod.snd))) = _
    rw [hd0, ← hdd]
    congr 1
    exact List.map_congr_left (fun d _ => by rw [dedup_find_eq_lastOfDay])
  set n := today + 1 - r0.1 with hn
  have hlen : 0 < n := by
    have := hmax r0 hr0
    omega
  obtain ⟨x0, hx0⟩ : ∃ x0, lastOfDay rows r0.1 = some x0 := by
    cases hc : lastOfDay rows r0.1 with
    | some x => exact ⟨x, rfl⟩
    | none => exact absurd rfl ((lastOfDay_eq_none_iff rows r0.1).mp hc r0 hr0)
  have hsplit : List.range' r0.1 n = r0.1 :: List.range' (r0.1 + 1) (n - 1) := by
    have : n = (n - 1) + 1 := by omega
    rw [this, List.range'_succ]
    simp
  have hpre : ∀ i, i < n →
      ((List.range' r0.1 n).map
        (fun d => (d, (lastOfDay rows d).map Prod.snd)))[i]? =
      some (r0.1 + i, (lastOfDay rows (r0.1 + i)).map Prod.snd) := by
    intro i hi
    rw [List.getElem?_map, List.getElem?_range' _ _ hi]
    simp
  have hfst : (projectSizePerDay today rows).map Prod.fst = List.range' r0.1 n := by
    rw [hdef, ffillAux_map_fst, map_fst_graph]
  refine ⟨hfst, ?_⟩
  intro i d v hv
  have hil : i < (projectSizePerDay today rows).length := by
    rcases List.getElem?_eq_some.mp hv with ⟨h, -⟩
    exact h
  have hlength : (projectSizePerDay today rows).length = n := by
    have h1 := congrArg List.length hfst
    simpa using h1
  have hin : i < n := by
    rw [← hlength]
    exact hil
  have hd : d = r0.1 + i := by
    have h1 : ((projectSizePerDay today rows).map Prod.fst)[i]? = some d := by
      rw [List.getElem?_map, hv]
      rfl
    rw [hfst, List.getElem?_range' _ _ hin] at h1
    injection h1 with h1
    omega
  have hprei := hpre i hin
  refine ⟨?_, ?_, ?_⟩
  · have hout : projectSizePerDay today rows =
        (r0.1, some x0.2) :: ffillAux (some x0.2)
          ((List.range' (r0.1 + 1) (n - 1)).map
            (fun e => (e, (lastOfDay rows e).map Prod.snd))) := by
      rw [hdef, hsplit, List.map_cons, hx0]
      rfl
    have hmem : (d, v) ∈ projectSizePerDay today rows := List.getElem?_mem hv
    rw [hout] at hmem
    rcases List.mem_cons.mp hmem with heq | hmem'
    · injection heq with h1 h2
      exact ⟨x0.2, h2⟩
    · exact ffillAux_all_some _ x0.2 (d, v) hmem'
  · intro x hx
    have h1 : ((List.range' r0.1 n).map
        (fun e => (e, (lastOfDay rows e).map Prod.snd)))[i]? = some (d, some x.2) := by
      rw [hprei, ← hd, hx]
      rfl
    have h2 := ffillAux_some _ none i d x.2 h1
    rw [← hdef, hv] at h2
    injection h2 with h2
    injection h2 with h2a h2b
  · intro hnone
    have hipos : 0 < i := by
      rcases Nat.eq_zero_or_pos i with rfl | h
      · rw [hd] at hnone
        simp only [Nat.add_zero] at hnone
        rw [hnone] at hx0
        exact absurd hx0 (by simp)
      · exact h
    refine ⟨hipos, ?_⟩
    intro p hp
    obtain ⟨j, rfl⟩ : ∃ j, i = j + 1 := ⟨i - 1, by omega⟩
    simp only [Nat.add_sub_cancel] at hp
    have hpe : ((List.range' r0.1 n).map
        (fun e => (e, (lastOfDay rows e).map Prod.snd)))[j + 1]? = some (d, none) := by
      rw [hprei, ← hd, hnone]
      rfl
    have hadj := ffillAux_adj _ none j d p (by rw [← hdef]; exact hp) hpe
    rw [← hdef, hv] at hadj
    injection hadj with hadj
    injection hadj with ha hb

/-- C8 (code bug): the Revision Normalizer cannot produce resolvable CommitLog
references.  First, `parse_vcs` raises a TypeError at the authors
deduplication call before constructing any CommitLog row (see C9).  Second,
even ignoring that, the commit-hash lookup dictionary is built from the
pandas index labels of the filtered frame, which are positions in the FULL
revision log, not in the batch written this run: with one previously
ingested hash h1 and a log [h1, h2], the new commit h2 maps to label 1 while
the run's commit-hash table has a single row, so 1 is not a valid 0-based
index into it (nor a positive 1-based one resolving to h2's row, which is
row 0 of the batch). -/
theorem commitLog_reference_label_out_of_range :
    kwargsResolve copyDedupDeclaredParams parseVcsDedupCallKeywords = false ∧
    valueToIndexLabeled
      (labeledHashes (some ["h1"])
        [⟨"h1", "a", "ae", "c", "ce", [], []⟩,
         ⟨"h2", "b", "be", "c", "ce", [], ["h1"]⟩]) "h2" = some 1 ∧
    (parse_vcs (some ["h1"])
      [⟨"h1", "a", "ae", "c", "ce", [], []⟩,
       ⟨"h2", "b", "be", "c", "ce", [], ["h1"]⟩]).commit_hashes.length = 1 ∧
    ¬((1 : Nat) < 1) := by
  exact ⟨by decide, by decide, by decide, by decide⟩

/-- C9 (code bug): `parse_vcs` calls
`copy_dataframe_cols_and_remove_duplicate_rows_by_col` with keyword
arguments `columns=` and `checkColumn=`, but the function is declared with
parameters `(df, keep_columns, unique_column)`; Python rejects the
unexpected keywords with a TypeError on every run, so the author/committer
deduplication never executes. -/
theorem authors_call_raises_type_error :
    kwargsResolve copyDedupDeclaredParams parseVcsDedupCallKeywords = false := by
  decide

/-- C10 (code bug): the parent-rewriting code at the end of `parse_vcs` is
unreachable — the authors deduplication call earlier in the function raises
a TypeError on every run (see C9) — and, as written, a parent hash that was
ingested in a PREVIOUS run is absent from this run's filtered log, so the
lookup dictionary has no entry for it and the reference becomes null (None),
not an index into the previously stored table.  Formally: for any commit
surviving the previous-hash filter, each of its parents that appears in the
previous run's hashes rewrites to `none`. -/
theorem parent_reference_from_previous_run_null
    (p : List String) (log0 : List RawRev) (r : RawRev) (j : Nat) (par : String)
    (hmem : r ∈ parseLog (some p) log0)
    (hj : r.parents[j]? = some par)
    (hprev : par ∈ p) :
    (rewriteParents p log0 r)[j]? = some none := by
  have hkeys : ∀ e ∈ labeledHashes (some p) log0, e.2 ≠ par := by
    intro e he hepar
    simp only [labeledHashes, labeledLog, List.mem_map] at he
    obtain ⟨x, hx, hxe⟩ := he
    have hxmem := List.mem_filter.mp hx
    have h2 : p.contains x.2.commit_hash = true := by
      apply List.elem_eq_true_of_mem
      have : e.2 = x.2.commit_hash := by rw [← hxe]
      rw [← this, hepar]
      exact hprev
    rw [h2] at hxmem
    simp at hxmem
  have hvx : valueToIndexLabeled (labeledHashes (some p) log0) par = none :=
    (valueToIndexLabeled_eq_none_iff _ _).mpr hkeys
  have hne : (r.parents.map
      (fun v => valueToIndexLabeled (labeledHashes (some p) log0) v)).isEmpty = false := by
    rcases List.getElem?_eq_some.mp hj with ⟨hlt, -⟩
    cases hc : r.parents with
    | nil => rw [hc] at hlt; simp at hlt
    | cons a as => rfl
  unfold rewriteParents replaceListLabeled
  simp only [hne, if_false, Bool.false_eq_true]
  rw [List.getElem?_map, hj]
  simp [hvx]

/-- C10 witness: previous run ingested h1; this run's log is [h1, h2]; the
surviving commit h2 has parent h1 (from the previous run) at position 0, and
its rewritten parent list holds null there. -/
theorem parent_reference_from_previous_run_null_witness :
    (⟨"h2", "b", "be", "c", "ce", [], ["h1"]⟩ : RawRev) ∈
        parseLog (some ["h1"])
          [⟨"h1", "a", "ae", "c", "ce", [], []⟩,
           ⟨"h2", "b", "be", "c", "ce", [], ["h1"]⟩] ∧
      (rewriteParents ["h1"]
        [⟨"h1", "a", "ae", "c", "ce", [], []⟩,
         ⟨"h2", "b", "be", "c", "ce", [], ["h1"]⟩]
        ⟨"h2", "b", "be", "c", "ce", [], ["h1"]⟩)[0]? = some none := by
  refine ⟨by decide, ?_⟩
  exact parent_reference_from_previous_run_null ["h1"]
    [⟨"h1", "a", "ae", "c", "ce", [], []⟩,
     ⟨"h2", "b", "be", "c", "ce", [], ["h1"]⟩]
    ⟨"h2", "b", "be", "c", "ce", [], ["h1"]⟩ 0 "h1"
    (by decide) (by decide) (by decide)

/-- C3 witness: chronological commits on days 0, 0, 2 with today = 3 — the
first (pre- and post-dedup) row's day is 0 and the output covers days
0..3. -/
theorem projectSizePerDay_coverage_chronological_witness :
    (([(0, ⟨1, 10, 1, 1, 1⟩), (0, ⟨2, 20, 2, 2, 2⟩), (2, ⟨3, 25, 3, 3, 3⟩)] :
        List (Nat × SizeRow)).head? = some (0, ⟨1, 10, 1, 1, 1⟩)) ∧
      (projectSizePerDay 3 [(0, ⟨1, 10, 1, 1, 1⟩), (0, ⟨2, 20, 2, 2, 2⟩),
          (2, ⟨3, 25, 3, 3, 3⟩)]).map Prod.fst = List.range' 0 (3 + 1 - 0) :=
  ⟨by decide,
   (projectSizePerDay_coverage_chronological 3
      [(0, ⟨1, 10, 1, 1, 1⟩), (0, ⟨2, 20, 2, 2, 2⟩), (2, ⟨3, 25, 3, 3, 3⟩)]
      (0, ⟨1, 10, 1, 1, 1⟩) (by decide) (by decide) (by decide)).1⟩
